import Mathlib

/-!
Shallow embedding of the triangular peg-solitaire solver
(`src/main.ts` and its alternate variant `src/unnamed/part_000`).

Positions are bitmasks over hole indices; machine integers are modelled as
`Nat`, except where JavaScript 32-bit wrapping is observable
(`fullBoardWithVacancyAt` on out-of-range indices), which is modelled
explicitly with `Int` and ECMAScript ToInt32/ToUint32 conversions.
-/

namespace Solitaire

/-- Number of holes along one side of the triangle board (source: `const N = 5`). -/
def N : Nat := 5

/-- Source `interface Hole`: an individual hole on the board. -/
structure Hole where
  row : Nat
  col : Nat
  index : Nat
deriving DecidableEq, Repr

/-- Source `interface Board`: a triangle of holes accessed by row and column. -/
structure Board where
  grid : List (List Hole)
deriving DecidableEq

/-- Source `interface Position`: occupancy bitmask, bit `i` set ⇔ hole `i` has a peg. -/
structure Position where
  bits : Nat
deriving DecidableEq, Repr

/-- Source `makeBoard`: builds the grid with a running index counter; for the hole
at (row, col) the counter value is `row * (row + 1) / 2 + col`. -/
def makeBoard : Board :=
  { grid := (List.range N).map fun row =>
      (List.range (row + 1)).map fun col =>
        { row := row, col := col, index := row * (row + 1) / 2 + col } }

/-- Source `hasPeg`: `bits & (1 << index)`, used as a truthiness test. -/
def hasPeg (p : Position) (h : Hole) : Bool := p.bits &&& (1 <<< h.index) != 0

/-- Source `isEmpty`: negation of `hasPeg`. -/
def isEmpty (p : Position) (h : Hole) : Bool := !hasPeg p h

/-- ECMAScript ToUint32. -/
def toUint32 (x : Int) : Nat := (x % 4294967296).toNat

/-- ECMAScript ToInt32. -/
def toInt32 (x : Int) : Int :=
  let u := toUint32 x
  if u < 2147483648 then (u : Int) else (u : Int) - 4294967296

/-- JavaScript shift `a << b`: ToInt32 of shifting ToInt32(a) by ToUint32(b) mod 32. -/
def jsShl (a b : Int) : Int := toInt32 (((toUint32 a) <<< (toUint32 b % 32) : Nat) : Int)

/-- JavaScript bitwise xor `a ^ b` on 32-bit two's-complement values. -/
def jsXor (a b : Int) : Int := toInt32 (((toUint32 a) ^^^ (toUint32 b) : Nat) : Int)

/-- Source `fullBoardWithVacancyAt`: `({ bits: (1 << index) ^ 0x7fff })` with
JavaScript 32-bit bitwise semantics; returns the raw JS number of the bits field. -/
def fullBoardWithVacancyAt (index : Int) : Int := jsXor (jsShl 1 index) 0x7fff

/-- Source `interface Move`; the `apply` closure captures the three-bit mask
`(1 << start.index) | (1 << middle.index) | (1 << destination.index)`,
stored here as the `mask` field. -/
structure Move where
  start : Hole
  middle : Hole
  destination : Hole
  mask : Nat
deriving DecidableEq, Repr

/-- Source `apply` closure of a move: XOR the captured mask into the bits. -/
def Move.apply (m : Move) (p : Position) : Position := ⟨p.bits ^^^ m.mask⟩

/-- Grid access `grid[r][c]`, with JavaScript out-of-range access modelled as `none`. -/
def holeAt (grid : List (List Hole)) (r c : Int) : Option Hole :=
  if 0 ≤ r ∧ 0 ≤ c then (grid.get? r.toNat).bind fun row => row.get? c.toNat
  else none

/-- Source `directions` of `src/main.ts`: up to six (rowDelta, colDelta) pairs,
in the generator's yield order. -/
def directions (h : Hole) : List (Int × Int) :=
  (if 1 < h.col then [((0 : Int), (-1 : Int))] else []) ++
  (if h.col + 2 ≤ h.row then [((0 : Int), (1 : Int))] else []) ++
  (if 1 < h.row ∧ h.col < h.row - 2 then [((-1 : Int), (0 : Int))] else []) ++
  (if 1 < h.row ∧ 1 < h.col then [((-1 : Int), (-1 : Int))] else []) ++
  (if h.row < N - 2 then [((1 : Int), (0 : Int)), ((1 : Int), (1 : Int))] else [])

/-- One (start, neighbor-function) candidate in the body of `possibleMoves`:
look up `middle`, skip if empty, look up `destination`, skip if occupied,
otherwise yield the move with its XOR mask. -/
def moveVia (p : Position) (neighbor : Hole → Option Hole) (start : Hole) : Option Move :=
  match neighbor start with
  | none => none
  | some middle =>
    if isEmpty p middle then none
    else
      match neighbor middle with
      | none => none
      | some destination =>
        if hasPeg p destination then none
        else some { start := start, middle := middle, destination := destination,
                    mask := (1 <<< start.index) ||| (1 <<< middle.index) |||
                            (1 <<< destination.index) }

/-- Source `possibleMoves` of `src/main.ts` (delta-pair directions): for each occupied
hole in row-major order, try each direction's neighbor closure
`({row, col}) => grid[row + rowDelta][col + colDelta]`, collected in yield order. -/
def possibleMoves (p : Position) (b : Board) : List Move :=
  b.grid.flatMap fun row =>
    row.flatMap fun start =>
      if hasPeg p start then
        (directions start).filterMap fun d =>
          moveVia p (fun h => holeAt b.grid ((h.row : Int) + d.1) ((h.col : Int) + d.2)) start
      else []

/-- Source `directions` of the alternate solver `src/unnamed/part_000`: the same six
guards, but each direction is a closure performing the grid lookup directly. -/
def directionsAlt (grid : List (List Hole)) (h : Hole) : List (Hole → Option Hole) :=
  (if 1 < h.col then [fun x => holeAt grid (x.row : Int) ((x.col : Int) - 1)] else []) ++
  (if h.col + 2 ≤ h.row then [fun x => holeAt grid (x.row : Int) ((x.col : Int) + 1)] else []) ++
  (if 1 < h.row ∧ h.col < h.row - 2 then
    [fun x => holeAt grid ((x.row : Int) - 1) (x.col : Int)] else []) ++
  (if 1 < h.row ∧ 1 < h.col then
    [fun x => holeAt grid ((x.row : Int) - 1) ((x.col : Int) - 1)] else []) ++
  (if h.row < N - 2 then
    [fun x => holeAt grid ((x.row : Int) + 1) (x.col : Int),
     fun x => holeAt grid ((x.row : Int) + 1) ((x.col : Int) + 1)] else [])

/-- Source `possibleMoves` of `src/unnamed/part_000` (neighbor-closure directions). -/
def possibleMovesAlt (p : Position) (b : Board) : List Move :=
  b.grid.flatMap fun row =>
    row.flatMap fun start =>
      if hasPeg p start then
        (directionsAlt b.grid start).filterMap fun dir => moveVia p dir start
      else []

/-- Source `addMoves` (inner function of `solve`): depth-bounded DFS returning the
first solution found; `none` models the source's `null`. -/
def addMoves (b : Board) : Nat → Position → Option (List Move)
  | 0, _ => some []
  | depth + 1, p =>
    (possibleMoves p b).findSome? fun m =>
      (addMoves b depth (m.apply p)).map fun tail => m :: tail

/-- Source `solve` of `src/main.ts`: hard-coded depth 13. The source's trailing `!`
is a TypeScript type-level non-null assertion, so the runtime result is
`addMoves(13, position)` itself, possibly `null`. -/
def solve (p : Position) (b : Board) : Option (List Move) := addMoves b 13 p

/-- Source `addMoves` of the alternate solver `src/unnamed/part_000`. -/
def addMovesAlt (b : Board) : Nat → Position → Option (List Move)
  | 0, _ => some []
  | depth + 1, p =>
    (possibleMovesAlt p b).findSome? fun m =>
      (addMovesAlt b depth (m.apply p)).map fun tail => m :: tail

/-- Source `solve` of the alternate solver `src/unnamed/part_000`. -/
def solveAlt (p : Position) (b : Board) : Option (List Move) := addMovesAlt b 13 p

/-- Source top level: `const position = fullBoardWithVacancyAt(12)`. -/
def position : Position := ⟨(fullBoardWithVacancyAt 12).toNat⟩

/-- Peg count in the spec's sense: number of occupied holes among the 15 holes of
the standard board (hole indices 0 through 14). -/
def pegCount (p : Position) : Nat := ((Finset.range 15).filter fun i => p.bits.testBit i).card

/-- Total number of holes on a board. -/
def totalHoles (b : Board) : Nat := (b.grid.map List.length).sum

/-- Geometric candidate for one (start, neighbor-function) pair: like `moveVia`
with the occupancy checks dropped. -/
def candidateVia (neighbor : Hole → Option Hole) (start : Hole) : Option Move :=
  match neighbor start with
  | none => none
  | some middle =>
    match neighbor middle with
    | none => none
    | some destination =>
      some { start := start, middle := middle, destination := destination,
             mask := (1 <<< start.index) ||| (1 <<< middle.index) |||
                     (1 <<< destination.index) }

/-- All geometric move candidates of a board, a superset of `possibleMoves` for
every position. -/
def candidateMoves (b : Board) : List Move :=
  b.grid.flatMap fun row =>
    row.flatMap fun start =>
      (directions start).filterMap fun d =>
        candidateVia (fun h => holeAt b.grid ((h.row : Int) + d.1) ((h.col : Int) + d.2)) start

/-- Geometric well-formedness of a move's index triple: all three hole indices are
below 15 and pairwise distinct. Holds for every candidate of the standard board. -/
def goodTriple (m : Move) : Bool :=
  decide (m.start.index < 15) && decide (m.middle.index < 15) &&
  decide (m.destination.index < 15) &&
  (m.start.index != m.middle.index) && (m.start.index != m.destination.index) &&
  (m.middle.index != m.destination.index)

/-- Propagation of a move list: apply the moves in order from a starting position. -/
def applyMoves (p : Position) (l : List Move) : Position :=
  l.foldl (fun q m => m.apply q) p

/-- Legality of a move list: each move is yielded by `possibleMoves` at the position
reached by applying all prior moves. -/
def legalChain (b : Board) : Position → List Move → Prop
  | _, [] => True
  | p, m :: ms => m ∈ possibleMoves p b ∧ legalChain b (m.apply p) ms

/-- Peg counts along a move list: the count at the start and after each move. -/
def pegCountsFrom (p : Position) : List Move → List Nat
  | [] => [pegCount p]
  | m :: ms => pegCount p :: pegCountsFrom (m.apply p) ms

/-- Position with pegs exactly at holes 0 = (0,0) and 1 = (1,0). -/
def twoPegPosition : Position := ⟨3⟩

/-- Position with a single peg at hole 12. -/
def onePegPosition : Position := ⟨4096⟩

/-- Position with pegs exactly at holes 1 = (1,0) and 3 = (2,0); hole 0 = (0,0) empty. -/
def pegsAt310 : Position := ⟨10⟩

/-- Both the one-step and the two-step neighbor in direction (dr, dc) from a hole
exist on the grid. -/
def twoStepInBounds (grid : List (List Hole)) (h : Hole) (dr dc : Int) : Bool :=
  match holeAt grid ((h.row : Int) + dr) ((h.col : Int) + dc) with
  | none => false
  | some mid => (holeAt grid ((mid.row : Int) + dr) ((mid.col : Int) + dc)).isSome

/-- The downward jump from hole (0,0) over (1,0) into (2,0), as yielded by
`possibleMoves` on `twoPegPosition`. -/
def downMove : Move := ⟨⟨0, 0, 0⟩, ⟨1, 0, 1⟩, ⟨2, 0, 3⟩, 11⟩

/-- The solution the solver finds for the standard start (vacancy at hole 12),
written out explicitly: 13 moves as (start, middle, destination, mask). -/
def stdSolution : List Move :=
  [⟨⟨2, 0, 3⟩, ⟨3, 1, 7⟩, ⟨4, 2, 12⟩, 4232⟩,
   ⟨⟨0, 0, 0⟩, ⟨1, 0, 1⟩, ⟨2, 0, 3⟩, 11⟩,
   ⟨⟨1, 1, 2⟩, ⟨2, 1, 4⟩, ⟨3, 1, 7⟩, 148⟩,
   ⟨⟨3, 0, 6⟩, ⟨2, 0, 3⟩, ⟨1, 0, 1⟩, 74⟩,
   ⟨⟨3, 3, 9⟩, ⟨2, 2, 5⟩, ⟨1, 1, 2⟩, 548⟩,
   ⟨⟨4, 2, 12⟩, ⟨3, 1, 7⟩, ⟨2, 0, 3⟩, 4232⟩,
   ⟨⟨1, 0, 1⟩, ⟨2, 0, 3⟩, ⟨3, 0, 6⟩, 74⟩,
   ⟨⟨4, 0, 10⟩, ⟨3, 0, 6⟩, ⟨2, 0, 3⟩, 1096⟩,
   ⟨⟨4, 3, 13⟩, ⟨3, 2, 8⟩, ⟨2, 1, 4⟩, 8464⟩,
   ⟨⟨1, 1, 2⟩, ⟨2, 1, 4⟩, ⟨3, 1, 7⟩, 148⟩,
   ⟨⟨2, 0, 3⟩, ⟨3, 1, 7⟩, ⟨4, 2, 12⟩, 4232⟩,
   ⟨⟨4, 1, 11⟩, ⟨4, 2, 12⟩, ⟨4, 3, 13⟩, 14336⟩,
   ⟨⟨4, 4, 14⟩, ⟨4, 3, 13⟩, ⟨4, 2, 12⟩, 28672⟩]

lemma hasPeg_eq_testBit (p : Position) (h : Hole) :
    hasPeg p h = p.bits.testBit h.index := by
  unfold hasPeg
  rw [Nat.one_shiftLeft, Nat.and_two_pow]
  cases hb : p.bits.testBit h.index <;>
    simp [hb, Nat.pos_iff_ne_zero, Nat.pos_pow_of_pos]

lemma moveVia_eq_some {p : Position} {nb : Hole → Option Hole} {s : Hole} {m : Move}
    (h : moveVia p nb s = some m) :
    ∃ middle destination, nb s = some middle ∧ hasPeg p middle = true ∧
      nb middle = some destination ∧ hasPeg p destination = false ∧
      m = ⟨s, middle, destination,
           (1 <<< s.index) ||| (1 <<< middle.index) ||| (1 <<< destination.index)⟩ := by
  unfold moveVia at h
  split at h
  · exact absurd h (by simp)
  · rename_i middle hns
    split at h
    · exact absurd h (by simp)
    · rename_i hemp
      split at h
      · exact absurd h (by simp)
      · rename_i destination hnm
        split at h
        · exact absurd h (by simp)
        · rename_i hpd
          refine ⟨middle, destination, hns, ?_, hnm, ?_, ?_⟩
          · unfold isEmpty at hemp
            simpa using hemp
          · simpa using hpd
          · exact (Option.some_inj.mp h).symm

lemma mem_possibleMoves {p : Position} {b : Board} {m : Move}
    (hm : m ∈ possibleMoves p b) :
    hasPeg p m.start = true ∧ hasPeg p m.middle = true ∧
    hasPeg p m.destination = false ∧
    m.mask = (1 <<< m.start.index) ||| (1 <<< m.middle.index) |||
             (1 <<< m.destination.index) := by
  unfold possibleMoves at hm
  rw [List.mem_flatMap] at hm
  obtain ⟨row, _, hm⟩ := hm
  rw [List.mem_flatMap] at hm
  obtain ⟨s, _, hm⟩ := hm
  by_cases hp : hasPeg p s = true
  · rw [if_pos hp] at hm
    rw [List.mem_filterMap] at hm
    obtain ⟨d, _, hmv⟩ := hm
    obtain ⟨middle, destination, _, hpm, _, hpd, rfl⟩ := moveVia_eq_some hmv
    exact ⟨hp, hpm, hpd, rfl⟩
  · rw [if_neg hp] at hm
    exact absurd hm (List.not_mem_nil m)

lemma moveVia_imp_candidate {p : Position} {nb : Hole → Option Hole} {s : Hole} {m : Move}
    (h : moveVia p nb s = some m) : candidateVia nb s = some m := by
  obtain ⟨middle, destination, hns, _, hnm, _, rfl⟩ := moveVia_eq_some h
  simp only [candidateVia, hns, hnm]

lemma possibleMoves_subset_candidates (p : Position) (b : Board) :
    ∀ m ∈ possibleMoves p b, m ∈ candidateMoves b := by
  intro m hm
  unfold possibleMoves at hm
  rw [List.mem_flatMap] at hm
  obtain ⟨row, hrow, hm⟩ := hm
  rw [List.mem_flatMap] at hm
  obtain ⟨s, hs, hm⟩ := hm
  by_cases hp : hasPeg p s = true
  · rw [if_pos hp] at hm
    rw [List.mem_filterMap] at hm
    obtain ⟨d, hd, hmv⟩ := hm
    unfold candidateMoves
    rw [List.mem_flatMap]
    refine ⟨row, hrow, ?_⟩
    rw [List.mem_flatMap]
    refine ⟨s, hs, ?_⟩
    rw [List.mem_filterMap]
    exact ⟨d, hd, moveVia_imp_candidate hmv⟩
  · rw [if_neg hp] at hm
    exact absurd hm (List.not_mem_nil m)

lemma mem_good {p : Position} {m : Move} (hm : m ∈ possibleMoves p makeBoard) :
    m.start.index < 15 ∧ m.middle.index < 15 ∧ m.destination.index < 15 ∧
    m.start.index ≠ m.middle.index ∧ m.start.index ≠ m.destination.index ∧
    m.middle.index ≠ m.destination.index := by
  have hc := possibleMoves_subset_candidates p makeBoard m hm
  have hgood : ∀ x ∈ candidateMoves makeBoard, goodTriple x = true := by decide
  have hg := hgood m hc
  unfold goodTriple at hg
  simp only [Bool.and_eq_true, decide_eq_true_eq, bne_iff_ne, ne_eq] at hg
  tauto

lemma pegCount_flip (bits s mi d : Nat)
    (hs : s < 15) (hmi : mi < 15) (hd : d < 15)
    (hsm : s ≠ mi) (hsd : s ≠ d) (hmd : mi ≠ d)
    (hbs : bits.testBit s = true) (hbm : bits.testBit mi = true)
    (hbd : bits.testBit d = false) :
    pegCount ⟨bits ^^^ ((1 <<< s) ||| (1 <<< mi) ||| (1 <<< d))⟩ + 1 = pegCount ⟨bits⟩ := by
  have hms : mi ≠ s := Ne.symm hsm
  have hds : d ≠ s := Ne.symm hsd
  have hdm : d ≠ mi := Ne.symm hmd
  unfold pegCount
  dsimp only
  have hset :
      (Finset.range 15).filter
          (fun i => (bits ^^^ ((1 <<< s) ||| (1 <<< mi) ||| (1 <<< d))).testBit i)
        = insert d ((((Finset.range 15).filter fun i => bits.testBit i).erase s).erase mi) := by
    ext i
    simp only [Finset.mem_filter, Finset.mem_insert, Finset.mem_erase, Finset.mem_range,
      Nat.testBit_xor, Nat.testBit_or, Nat.one_shiftLeft, Nat.testBit_two_pow, ne_eq]
    by_cases his : i = s
    · subst his
      simp [hbs, hsm, hsd, hms, hds]
    · by_cases him : i = mi
      · subst him
        simp [hbm, hmd, hms, hdm, hsm]
      · by_cases hid : i = d
        · subst hid
          simp [hbd, hd, hds, hdm, hsd, hmd]
        · have hsi : s ≠ i := Ne.symm his
          have hmii : mi ≠ i := Ne.symm him
          have hdi : d ≠ i := Ne.symm hid
          simp [hsi, hmii, hdi, his, him, hid]
  rw [hset]
  have hsmem : s ∈ (Finset.range 15).filter fun i => bits.testBit i := by
    simp [Finset.mem_filter, hbs, hs]
  have hmimem : mi ∈ ((Finset.range 15).filter fun i => bits.testBit i).erase s := by
    simp [Finset.mem_erase, Finset.mem_filter, hbm, hmi, hms]
  have hdnot : d ∉ (((Finset.range 15).filter fun i => bits.testBit i).erase s).erase mi := by
    simp [Finset.mem_erase, Finset.mem_filter, hbd]
  rw [Finset.card_insert_of_not_mem hdnot, Finset.card_erase_of_mem hmimem,
    Finset.card_erase_of_mem hsmem]
  have h1 : 0 < ((Finset.range 15).filter fun i => bits.testBit i).card :=
    Finset.card_pos.mpr ⟨s, hsmem⟩
  have h2 : 0 < (((Finset.range 15).filter fun i => bits.testBit i).erase s).card :=
    Finset.card_pos.mpr ⟨mi, hmimem⟩
  have h3 := Finset.card_erase_of_mem hsmem
  omega

lemma pegCount_apply_mem {p : Position} {m : Move}
    (hm : m ∈ possibleMoves p makeBoard) :
    pegCount (m.apply p) + 1 = pegCount p := by
  obtain ⟨hps, hpm, hpd, hmask⟩ := mem_possibleMoves hm
  obtain ⟨h1, h2, h3, h4, h5, h6⟩ := mem_good hm
  rw [hasPeg_eq_testBit] at hps hpm hpd
  show pegCount ⟨p.bits ^^^ m.mask⟩ + 1 = pegCount p
  rw [hmask]
  exact pegCount_flip p.bits _ _ _ h1 h2 h3 h4 h5 h6 hps hpm hpd

lemma apply_bits_spec {p : Position} {b : Board} {m : Move}
    (hm : m ∈ possibleMoves p b) :
    (m.apply p).bits.testBit m.start.index = false ∧
    (m.apply p).bits.testBit m.middle.index = false ∧
    (m.apply p).bits.testBit m.destination.index = true ∧
    ∀ i, i ≠ m.start.index → i ≠ m.middle.index → i ≠ m.destination.index →
      (m.apply p).bits.testBit i = p.bits.testBit i := by
  obtain ⟨hps, hpm, hpd, hmask⟩ := mem_possibleMoves hm
  rw [hasPeg_eq_testBit] at hps hpm hpd
  have happ : (m.apply p).bits = p.bits ^^^ m.mask := rfl
  rw [happ, hmask]
  refine ⟨?_, ?_, ?_, ?_⟩
  · simp [Nat.testBit_xor, Nat.testBit_or, Nat.one_shiftLeft, Nat.testBit_two_pow, hps]
  · simp [Nat.testBit_xor, Nat.testBit_or, Nat.one_shiftLeft, Nat.testBit_two_pow, hpm]
  · simp [Nat.testBit_xor, Nat.testBit_or, Nat.one_shiftLeft, Nat.testBit_two_pow, hpd]
  · intro i his him hid
    have h1 : m.start.index ≠ i := Ne.symm his
    have h2 : m.middle.index ≠ i := Ne.symm him
    have h3 : m.destination.index ≠ i := Ne.symm hid
    simp [Nat.testBit_xor, Nat.testBit_or, Nat.one_shiftLeft, Nat.testBit_two_pow,
      h1, h2, h3]

lemma addMoves_eq_some {b : Board} :
    ∀ {d : Nat} {p : Position} {l : List Move},
      addMoves b d p = some l → l.length = d ∧ legalChain b p l := by
  intro d
  induction d with
  | zero =>
    intro p l h
    rw [addMoves] at h
    cases Option.some_inj.mp h
    exact ⟨rfl, trivial⟩
  | succ n ih =>
    intro p l h
    rw [addMoves] at h
    obtain ⟨m, hmem, hf⟩ := List.exists_of_findSome?_eq_some h
    cases htail : addMoves b n (m.apply p) with
    | none => rw [htail] at hf; exact absurd hf (by simp)
    | some tail =>
      rw [htail] at hf
      simp only [Option.map_some'] at hf
      cases Option.some_inj.mp hf
      obtain ⟨hlen, hchain⟩ := ih htail
      exact ⟨by simp [hlen], hmem, hchain⟩

lemma legalChain_pegCount :
    ∀ {l : List Move} {p : Position}, legalChain makeBoard p l →
      pegCount (applyMoves p l) + l.length = pegCount p := by
  intro l
  induction l with
  | nil => intro p _; simp [applyMoves]
  | cons m ms ih =>
    intro p hchain
    obtain ⟨hmem, hrest⟩ := hchain
    have h1 := ih hrest
    have h2 := pegCount_apply_mem hmem
    simp only [applyMoves, List.foldl_cons] at h1 ⊢
    simp only [List.length_cons]
    omega

lemma legalChain_step :
    ∀ {l : List Move} {p : Position} {k : Nat}, legalChain makeBoard p l →
      k < l.length →
      pegCount (applyMoves p (l.take (k + 1))) + 1 = pegCount (applyMoves p (l.take k)) := by
  intro l
  induction l with
  | nil => intro p k _ hk; simp at hk
  | cons m ms ih =>
    intro p k hchain hk
    obtain ⟨hmem, hrest⟩ := hchain
    cases k with
    | zero =>
      simpa [applyMoves] using pegCount_apply_mem hmem
    | succ k =>
      have := ih hrest (by simpa using hk)
      simpa [applyMoves, List.take_succ_cons] using this

lemma legalChain_last_pos :
    ∀ {l : List Move} {p : Position}, l ≠ [] → legalChain makeBoard p l →
      1 ≤ pegCount (applyMoves p l) := by
  intro l
  induction l with
  | nil => intro p h _; exact absurd rfl h
  | cons m ms ih =>
    intro p _ hchain
    obtain ⟨hmem, hrest⟩ := hchain
    cases ms with
    | nil =>
      have hd := (apply_bits_spec hmem).2.2.1
      have hd15 := (mem_good hmem).2.2.1
      have : m.destination.index ∈
          (Finset.range 15).filter fun i => (m.apply p).bits.testBit i := by
        simp [Finset.mem_filter, hd, hd15]
      simpa [applyMoves, pegCount] using Finset.card_pos.mpr ⟨_, this⟩
    | cons m2 ms2 =>
      have := ih (by simp) hrest
      simpa [applyMoves] using this

lemma pegCount_le_of_move {p : Position} {m : Move}
    (hm : m ∈ possibleMoves p makeBoard) : pegCount p ≤ 14 := by
  obtain ⟨_, _, hpd, _⟩ := mem_possibleMoves hm
  rw [hasPeg_eq_testBit] at hpd
  have hd15 := (mem_good hm).2.2.1
  have hsub : ((Finset.range 15).filter fun i => p.bits.testBit i) ⊆
      (Finset.range 15).erase m.destination.index := by
    intro i hi
    rw [Finset.mem_filter] at hi
    rw [Finset.mem_erase]
    refine ⟨?_, hi.1⟩
    intro hcon
    rw [hcon] at hi
    rw [hi.2] at hpd
    exact absurd hpd (by simp)
  calc pegCount p ≤ ((Finset.range 15).erase m.destination.index).card :=
        Finset.card_le_card hsub
    _ = 14 := by
        rw [Finset.card_erase_of_mem (Finset.mem_range.mpr hd15), Finset.card_range]

lemma flatMap_congr {α β : Type} {l : List α} {f g : α → List β}
    (h : ∀ a ∈ l, f a = g a) : l.flatMap f = l.flatMap g := by
  induction l with
  | nil => rfl
  | cons x xs ih =>
    simp only [List.flatMap_cons]
    rw [h x (List.mem_cons_self x xs), ih fun a ha => h a (List.mem_cons_of_mem x ha)]

lemma filterMap_pair_singleton (p : Position) (s : Hole) (grid : List (List Hole))
    (c : Prop) [Decidable c] (dr dc : Int) :
    (if c then [fun (x : Hole) => holeAt grid ((x.row : Int) + dr) ((x.col : Int) + dc)]
     else []).filterMap (fun dir => moveVia p dir s) =
    (if c then [(dr, dc)] else []).filterMap (fun d =>
      moveVia p (fun h => holeAt grid ((h.row : Int) + d.1) ((h.col : Int) + d.2)) s) := by
  by_cases hc : c
  · rw [if_pos hc, if_pos hc]; rfl
  · rw [if_neg hc, if_neg hc]; rfl

lemma filterMap_pair_doubleton (p : Position) (s : Hole) (grid : List (List Hole))
    (c : Prop) [Decidable c] (dr1 dc1 dr2 dc2 : Int) :
    (if c then [fun (x : Hole) => holeAt grid ((x.row : Int) + dr1) ((x.col : Int) + dc1),
                fun (x : Hole) => holeAt grid ((x.row : Int) + dr2) ((x.col : Int) + dc2)]
     else []).filterMap (fun dir => moveVia p dir s) =
    (if c then [(dr1, dc1), (dr2, dc2)] else []).filterMap (fun d =>
      moveVia p (fun h => holeAt grid ((h.row : Int) + d.1) ((h.col : Int) + d.2)) s) := by
  by_cases hc : c
  · rw [if_pos hc, if_pos hc]; rfl
  · rw [if_neg hc, if_neg hc]; rfl

lemma possibleMovesAlt_eq (p : Position) (b : Board) :
    possibleMovesAlt p b = possibleMoves p b := by
  unfold possibleMoves possibleMovesAlt
  refine flatMap_congr fun row _ => flatMap_congr fun s _ => ?_
  by_cases hp : hasPeg p s = true
  · rw [if_pos hp, if_pos hp]
    have e1 : (fun (x : Hole) => holeAt b.grid (x.row : Int) ((x.col : Int) - 1)) =
        fun (x : Hole) => holeAt b.grid ((x.row : Int) + 0) ((x.col : Int) + -1) := by
      funext x; congr 1
    have e2 : (fun (x : Hole) => holeAt b.grid (x.row : Int) ((x.col : Int) + 1)) =
        fun (x : Hole) => holeAt b.grid ((x.row : Int) + 0) ((x.col : Int) + 1) := by
      funext x; congr 1
    have e3 : (fun (x : Hole) => holeAt b.grid ((x.row : Int) - 1) (x.col : Int)) =
        fun (x : Hole) => holeAt b.grid ((x.row : Int) + -1) ((x.col : Int) + 0) := by
      funext x; congr 1
    have e4 : (fun (x : Hole) => holeAt b.grid ((x.row : Int) - 1) ((x.col : Int) - 1)) =
        fun (x : Hole) => holeAt b.grid ((x.row : Int) + -1) ((x.col : Int) + -1) := by
      funext x; congr 1
    have e5 : (fun (x : Hole) => holeAt b.grid ((x.row : Int) + 1) (x.col : Int)) =
        fun (x : Hole) => holeAt b.grid ((x.row : Int) + 1) ((x.col : Int) + 0) := by
      funext x; congr 1
    unfold directionsAlt directions
    rw [e1, e2, e3, e4, e5]
    simp only [List.filterMap_append]
    rw [filterMap_pair_singleton, filterMap_pair_singleton, filterMap_pair_singleton,
      filterMap_pair_singleton, filterMap_pair_doubleton]
  · rw [if_neg hp, if_neg hp]

lemma addMovesAlt_eq (b : Board) :
    ∀ (d : Nat) (p : Position), addMovesAlt b d p = addMoves b d p := by
  intro d
  induction d with
  | zero => intro p; rfl
  | succ n ih =>
    intro p
    rw [addMoves, addMovesAlt, possibleMovesAlt_eq]
    have hfun : (fun (m : Move) => (addMovesAlt b n (m.apply p)).map fun tail => m :: tail) =
        fun (m : Move) => (addMoves b n (m.apply p)).map fun tail => m :: tail :=
      funext fun m => by rw [ih]
    rw [hfun]

/-- C1 (counterexample): for the standard start (vacancy at hole 12), `solve` does
not return a 14-move Solution — its result has 13 moves. -/
theorem C1_counterexample : (solve position makeBoard).map List.length ≠ some 14 := by
  decide

/-- C1 (amended): for the standard board with the initial Position at vacancy 12,
the board has 15 holes, `solve` returns a Solution of exactly 13 moves, and the peg
count after applying k moves is 14 − k for every k from 0 to 13. -/
theorem C1_standard_board_solution :
    totalHoles makeBoard = 15 ∧
    (solve position makeBoard).map List.length = some 13 ∧
    (solve position makeBoard).map (pegCountsFrom position) =
      some ((List.range 14).map fun k => 14 - k) := by
  refine ⟨by decide, by decide, by decide⟩

/-- C2 (counterexample): the depth bound of `solve` is not `pegCount − 1`. The
two-peg position (pegs at holes 0 and 1) has peg count 2 and is solvable at depth
1 = pegCount − 1, yet `solve` — whose depth is hard-coded to 13 — returns `none`. -/
theorem C2_counterexample :
    pegCount twoPegPosition = 2 ∧
    (addMoves makeBoard 1 twoPegPosition).isSome = true ∧
    solve twoPegPosition makeBoard = none := by
  refine ⟨by decide, by decide, by decide⟩

/-- C2 (amended): the depth bound of `solve` is hard-coded to 13 regardless of the
input's peg count, so any Solution returned by `solve` has length exactly 13 (which
equals pegCount − 1 only for 14-peg positions). -/
theorem C2_solution_length (b : Board) (p : Position) (l : List Move)
    (h : solve p b = some l) : l.length = 13 :=
  (addMoves_eq_some h).1

/-- Witness for C2: the standard search succeeds with a 13-move list. -/
theorem C2_solution_length_witness :
    solve position makeBoard = some stdSolution ∧ stdSolution.length = 13 :=
  ⟨by decide, C2_solution_length makeBoard position stdSolution (by decide)⟩

/-- C3 (counterexample): `fullBoardWithVacancyAt` does not reject out-of-range
indices. Index 15 yields bits 0xffff — a malformed Position with unused high bit
15 set — and index −1 yields a wrapped negative JS number. -/
theorem C3_counterexample :
    fullBoardWithVacancyAt 15 = 65535 ∧ Nat.testBit 65535 15 = true ∧
    fullBoardWithVacancyAt (-1) = -2147450881 := by
  refine ⟨by decide, by decide, by decide⟩

/-- C3 (amended): `fullBoardWithVacancyAt` performs no range check: for in-range
indices i < 15 it returns 0x7fff − 2^i, while index 15 silently yields 0xffff
(unused bit 15 set) and index −1 yields the negative wrapped value −2147450881. -/
theorem C3_no_range_check :
    (∀ i : Nat, i < 15 → fullBoardWithVacancyAt (i : Int) = 32767 - 2 ^ i) ∧
    fullBoardWithVacancyAt 15 = 65535 ∧ Nat.testBit 65535 15 = true ∧
    fullBoardWithVacancyAt (-1) = -2147450881 ∧ fullBoardWithVacancyAt (-1) < 0 := by
  refine ⟨by decide, by decide, by decide, by decide, by decide⟩

/-- Witness for C3: the in-range clause at index 12 (the standard vacancy). -/
theorem C3_no_range_check_witness :
    fullBoardWithVacancyAt ((12 : Nat) : Int) = 32767 - 2 ^ (12 : Nat) :=
  C3_no_range_check.1 12 (by decide)

/-- C4 (counterexample): for a one-peg Position, `solve` does not return the empty
Solution; it returns the failure value (the source's `null`). -/
theorem C4_counterexample :
    solve onePegPosition makeBoard = none ∧
    solve onePegPosition makeBoard ≠ some [] := by
  refine ⟨by decide, by decide⟩

/-- C4 (amended): `solve` does not crash on zero- or one-peg positions, but —
because its depth bound is hard-coded to 13 — it returns the distinguished failure
value `none` (the source's `null`) for them, not an empty Solution. -/
theorem C4_failure_value :
    solve ⟨0⟩ makeBoard = none ∧
    (∀ i : Nat, i < 15 → solve ⟨2 ^ i⟩ makeBoard = none) := by
  refine ⟨by decide, by decide⟩

/-- Witness for C4: the one-peg position with its peg at hole 12. -/
theorem C4_failure_value_witness : solve ⟨2 ^ 12⟩ makeBoard = none :=
  C4_failure_value.2 12 (by decide)

/-- C5 (confirmed): on the position with pegs at (2,0) and (1,0) and hole (0,0)
empty, the geometrically valid up-jump from hole 3 = (2,0) to hole 0 = (0,0) is not
among the yielded moves; more generally no upward jump (middle directly above
start) is ever generated from a hole with col = row − 2, while the corresponding
downward jump (0,0) → (2,0) is generated. -/
theorem C5_up_direction_missing :
    (hasPeg pegsAt310 ⟨2, 0, 3⟩ = true ∧ hasPeg pegsAt310 ⟨1, 0, 1⟩ = true ∧
      isEmpty pegsAt310 ⟨0, 0, 0⟩ = true ∧
      (possibleMoves pegsAt310 makeBoard).all
        (fun m => !(m.start.index == 3 && m.destination.index == 0)) = true) ∧
    (∀ p : Position, (possibleMoves p makeBoard).all
        (fun m => !(m.middle.row + 1 == m.start.row && m.middle.col == m.start.col &&
                    m.start.col + 2 == m.start.row)) = true) ∧
    (possibleMoves twoPegPosition makeBoard).any
        (fun m => m.start.index == 0 && m.middle.index == 1 &&
                  m.destination.index == 3) = true := by
  refine ⟨by decide, ?_, by decide⟩
  intro p
  rw [List.all_eq_true]
  intro m hm
  have hc := possibleMoves_subset_candidates p makeBoard m hm
  have hall : ∀ x ∈ candidateMoves makeBoard,
      (!(x.middle.row + 1 == x.start.row && x.middle.col == x.start.col &&
         x.start.col + 2 == x.start.row)) = true := by decide
  exact hall m hc

/-- C6 (confirmed): every Move yielded by `possibleMoves` has its middle occupied
and its destination empty in the input Position, and applying it changes exactly
the three bits at the start, middle and destination indices (start and middle
become empty, destination becomes occupied, all other bits unchanged). -/
theorem C6_move_guards (p : Position) (b : Board) (m : Move)
    (hm : m ∈ possibleMoves p b) :
    hasPeg p m.middle = true ∧ isEmpty p m.destination = true ∧
    (m.apply p).bits.testBit m.start.index = false ∧
    (m.apply p).bits.testBit m.middle.index = false ∧
    (m.apply p).bits.testBit m.destination.index = true ∧
    ∀ i, i ≠ m.start.index → i ≠ m.middle.index → i ≠ m.destination.index →
      (m.apply p).bits.testBit i = p.bits.testBit i := by
  obtain ⟨_, hmid, hdest, _⟩ := mem_possibleMoves hm
  obtain ⟨h1, h2, h3, h4⟩ := apply_bits_spec hm
  exact ⟨hmid, by simp [isEmpty, hdest], h1, h2, h3, h4⟩

/-- Witness for C6: the downward jump yielded on the two-peg position. -/
theorem C6_move_guards_witness :
    hasPeg twoPegPosition downMove.middle = true ∧
    isEmpty twoPegPosition downMove.destination = true ∧
    (downMove.apply twoPegPosition).bits.testBit downMove.start.index = false ∧
    (downMove.apply twoPegPosition).bits.testBit downMove.middle.index = false ∧
    (downMove.apply twoPegPosition).bits.testBit downMove.destination.index = true ∧
    ∀ i, i ≠ downMove.start.index → i ≠ downMove.middle.index →
      i ≠ downMove.destination.index →
      (downMove.apply twoPegPosition).bits.testBit i =
        twoPegPosition.bits.testBit i :=
  C6_move_guards twoPegPosition makeBoard downMove (by decide)

/-- C7 (confirmed): applying a yielded Move twice in succession returns the
original Position — the XOR three-bit mask is self-inverse. -/
theorem C7_apply_involutive (p : Position) (b : Board) (m : Move)
    (hm : m ∈ possibleMoves p b) : m.apply (m.apply p) = p := by
  show (⟨(p.bits ^^^ m.mask) ^^^ m.mask⟩ : Position) = p
  rw [Nat.xor_cancel_right]

/-- Witness for C7: the downward jump on the two-peg position. -/
theorem C7_apply_involutive_witness :
    downMove.apply (downMove.apply twoPegPosition) = twoPegPosition :=
  C7_apply_involutive twoPegPosition makeBoard downMove (by decide)

/-- C8 (confirmed): whenever `solve` succeeds on the standard board, applying its
Moves in order decreases the peg count by exactly 1 at each step, and the final
Position has exactly one occupied hole. -/
theorem C8_solution_decreases (p : Position) (l : List Move)
    (h : solve p makeBoard = some l) :
    (∀ k, k < l.length →
      pegCount (applyMoves p (l.take (k + 1))) + 1 =
        pegCount (applyMoves p (l.take k))) ∧
    pegCount (applyMoves p l) = 1 := by
  obtain ⟨hlen, hchain⟩ := addMoves_eq_some h
  refine ⟨fun k hk => legalChain_step hchain hk, ?_⟩
  have htot := legalChain_pegCount hchain
  have hne : l ≠ [] := by
    intro hcon
    rw [hcon] at hlen
    simp at hlen
  have hge := legalChain_last_pos hne hchain
  have hle : pegCount p ≤ 14 := by
    cases l with
    | nil => exact absurd rfl hne
    | cons m ms => exact pegCount_le_of_move hchain.1
  omega

/-- Witness for C8: the standard search's 13-move solution. -/
theorem C8_solution_decreases_witness :
    (∀ k, k < stdSolution.length →
      pegCount (applyMoves position (stdSolution.take (k + 1))) + 1 =
        pegCount (applyMoves position (stdSolution.take k))) ∧
    pegCount (applyMoves position stdSolution) = 1 :=
  C8_solution_decreases position stdSolution (by decide)

/-- C9 (confirmed): the two solver variants — delta-pair directions in
`src/main.ts` and neighbor-closure directions in `src/unnamed/part_000` — yield
the same Moves in the same order for every Position and Board, and their `solve`
functions return equal results. -/
theorem C9_variants_equivalent (p : Position) (b : Board) :
    possibleMoves p b = possibleMovesAlt p b ∧ solve p b = solveAlt p b :=
  ⟨(possibleMovesAlt_eq p b).symm, (addMovesAlt_eq b 13 p).symm⟩

/-- C10 (confirmed): on the 5-row board, whenever a direction's boundary condition
holds at a hole, both the one-step middle neighbor and the two-step destination
neighbor exist on the triangular grid, so every grid access performed during move
enumeration is in bounds. -/
theorem C10_neighbors_in_bounds :
    ∀ h ∈ makeBoard.grid.flatMap id,
      (1 < h.col → twoStepInBounds makeBoard.grid h 0 (-1) = true) ∧
      (h.col + 2 ≤ h.row → twoStepInBounds makeBoard.grid h 0 1 = true) ∧
      (1 < h.row ∧ h.col < h.row - 2 →
        twoStepInBounds makeBoard.grid h (-1) 0 = true) ∧
      (1 < h.row ∧ 1 < h.col → twoStepInBounds makeBoard.grid h (-1) (-1) = true) ∧
      (h.row < N - 2 →
        twoStepInBounds makeBoard.grid h 1 0 = true ∧
        twoStepInBounds makeBoard.grid h 1 1 = true) := by
  decide

/-- Witness for C10: the down and down-right directions at the apex hole (0,0). -/
theorem C10_neighbors_in_bounds_witness :
    twoStepInBounds makeBoard.grid ⟨0, 0, 0⟩ 1 0 = true ∧
    twoStepInBounds makeBoard.grid ⟨0, 0, 0⟩ 1 1 = true :=
  (C10_neighbors_in_bounds ⟨0, 0, 0⟩ (by decide)).2.2.2.2 (by decide)

end Solitaire
